import Mathlib

/-!
# uz2flash: the staging sink of `examples/uz2flash/uzf.c`

A shallow embedding of the page-staging output sink of the uz2flash example
(`align_read`, `align_write`, the flush in `main`'s decompression loop and the
sizing of the destination buffer from the gzip trailer), with the properties of
the sink checked against it.

Modelling conventions.

* The program is read as a host program on an LP64 platform (it prints
  `d.dest - dest` with `%lu`): `long` and `ptrdiff_t` are 64 bits wide and
  hold every address and every difference of addresses exactly, so pointers
  and `long` values are `Int` without wrap-around; `unsigned int` is 32 bits
  wide and is a `Nat` reduced modulo `2^32` where the code can overflow.
  In `x < outlen` and `(start - p) + len` the `unsigned int` operand is
  converted to `long`, so the comparison is a signed one.
* `tmp` is a C object of its own (a global array of `TMPSZ` bytes); the input
  and destination buffers are heap blocks. The RAM page is therefore a store
  of its own (`Sink.tmp`, indexed by array index), `Sink.mem` is the
  byte-addressed memory of the two buffers, and `Sink.tmp_addr` is the
  address of `tmp`, which the assertion of `align_write` compares with.
* A failed `assert` and an access outside `tmp` are the two faults.
-/

namespace Uzf

/-- An `unsigned char`. -/
abbrev Byte := Fin 256

/-- The page size, `#define TMPSZ 512`. -/
def TMPSZ : Nat := 512

/-- The two ways a call into the sink can go wrong: an `assert` that fails
(the process aborts), and a store outside the bounds of `tmp` (undefined
behaviour in C), reported with the offending index. -/
inductive Fault where
  | assert_failed
  | out_of_bounds (idx : Int)
  deriving DecidableEq, Repr

/-- The global variables of `uzf.c` (lines 63-68 and 76) and the memory they
point into. -/
structure Sink where
  /-- contents of the array `tmp`, by index; the valid indices are `0 .. TMPSZ-1` -/
  tmp : Int → Byte
  /-- the address of `tmp`, that is `(long)tmp` -/
  tmp_addr : Int
  /-- byte-addressed memory holding the input and the destination buffer -/
  mem : Int → Byte
  len : Nat
  outlen : Nat
  source : Int
  dest : Int
  tmpshift : Int
  flashed : Int

/-- The macro `WITHIN(p,start,len)`:
`(((p) - (start)) >= 0) && (((start) - (p)) + (len) > 0)`. -/
def WITHIN (p start len : Int) : Bool :=
  decide (p - start ≥ 0) && decide ((start - p) + len > 0)

/-- The function `align_read` (lines 78-86). -/
def align_read (g : Sink) (s : Int) : Except Fault Byte :=
  if WITHIN s g.flashed TMPSZ then
    .ok (g.tmp (s - g.flashed))
  else if WITHIN s g.source g.len || WITHIN s g.dest (g.flashed - g.dest) then
    .ok (g.mem s)
  else
    .error .assert_failed

/-- The function `align_write` (lines 88-94): the assertion, then the store
`tmp[d - dest - tmpshift] = v`, which is a fault when the index is not an
index of `tmp`. -/
def align_write (g : Sink) (d : Int) (v : Byte) : Except Fault Sink :=
  if d - g.tmp_addr ≥ 0 ∧ g.tmp_addr + TMPSZ - d < g.outlen then
    let idx := d - g.dest - g.tmpshift
    if 0 ≤ idx ∧ idx < TMPSZ then
      .ok { g with tmp := Function.update g.tmp idx v }
    else
      .error (.out_of_bounds idx)
  else
    .error .assert_failed

/-- The bytes `tmp[0], .., tmp[n-1]`, which `memcpy(flashed, tmp, n)` reads. -/
def page_bytes (g : Sink) (n : Nat) : List Byte :=
  (List.range n).map (fun (j : Nat) => g.tmp (Int.ofNat j))

/-- The call `memcpy(flashed, tmp, chunk_len)` (line 217). -/
def flush_copy (g : Sink) (chunk_len : Nat) : Sink :=
  { g with mem := fun a =>
      if g.flashed ≤ a ∧ a < g.flashed + chunk_len then g.tmp (a - g.flashed) else g.mem a }

/-- The statement `flashed += chunk_len` (line 218). -/
def flush_advance (g : Sink) (chunk_len : Nat) : Sink :=
  { g with flashed := g.flashed + chunk_len }

/-- The flush of lines 217-218: the copy, then the advance of `flashed`. -/
def flush (g : Sink) (chunk_len : Nat) : Sink :=
  flush_advance (flush_copy g chunk_len) chunk_len

/-- The declared length read from the trailer (lines 164-167); `dlen` is an
`unsigned int`, `source[i]` an `unsigned char`. Line 160 has left for
`len < 4`, so the four indices `len - 1 .. len - 4` do not wrap. -/
def trailer_dlen (g : Sink) : Nat :=
  let d0 := (g.mem (g.source + ((g.len - 1 : Nat) : Int))).val
  let d1 := (256 * d0 + (g.mem (g.source + ((g.len - 2 : Nat) : Int))).val) % 2 ^ 32
  let d2 := (256 * d1 + (g.mem (g.source + ((g.len - 3 : Nat) : Int))).val) % 2 ^ 32
  (256 * d2 + (g.mem (g.source + ((g.len - 4 : Nat) : Int))).val) % 2 ^ 32

/-- The capacity passed to `malloc` (line 174, `dlen++` on an `unsigned int`). -/
def dest_capacity (g : Sink) : Nat :=
  (trailer_dlen g + 1) % 2 ^ 32

/-- Modelled from the spec: the result codes of `uzlib_uncompress` are declared
in `uzlib.h`, which is not among the sources. `main` tells apart `TINF_OK`,
`TINF_DONE` and the error codes; only that they differ is used. -/
inductive Res where
  | TINF_OK
  | TINF_DONE
  | TINF_ERROR (code : Int)
  deriving DecidableEq, Repr

/-- The engine `uzlib_uncompress` as an oracle. Its answer to a call is the
list of bytes it emits during that call, in emission order, and the code it
returns. The answer may depend on the number of earlier calls, on the number
of bytes emitted before the call (`d.dest - d.dest_start`) and on the room it
is given (`d.dest_limit - d.dest`). -/
abbrev Engine := Nat → Nat → Nat → List Byte × Res

/-- The contract of the engine towards the sink: during a call it emits no
byte at or past `d.dest_limit`, and it returns `TINF_OK` only when `d.dest`
has reached `d.dest_limit`. -/
def EngineContract (eng : Engine) : Prop :=
  ∀ k pos room, (eng k pos room).1.length ≤ room ∧
    ((eng k pos room).2 = Res.TINF_OK → (eng k pos room).1.length = room)

/-- The stricter engine model: a call either fills `[d.dest, d.dest_limit)` and
returns `TINF_OK`, or stops before `d.dest_limit` and returns another code. -/
def EngineStopsEarly (eng : Engine) : Prop :=
  ∀ k pos room, (eng k pos room).2 ≠ Res.TINF_OK → (eng k pos room).1.length < room

/-- Modelled from the spec: `uzlib_uncompress` (tinflate.c) is not among the
sources. This is the engine on a stream that decodes to the bytes `xs`: a call
fills the room it is given and returns `TINF_OK` while that many bytes remain,
and otherwise emits the remaining bytes and returns `TINF_DONE`. -/
def stream_engine (xs : List Byte) : Engine :=
  fun _ pos room =>
    if room ≤ (xs.drop pos).length then ((xs.drop pos).take room, Res.TINF_OK)
    else (xs.drop pos, Res.TINF_DONE)

/-- The program points of `main`'s decompression loop (lines 205-224). -/
inductive PC where
  /-- at `while (dlen)`, line 205 -/
  | loop_test
  /-- inside `uzlib_uncompress(&d)`, line 211: `pending` are the bytes the
  engine has still to emit in this call, `r` the code it will return -/
  | in_call (pending : List Byte) (r : Res) (chunk_len : Nat)
  /-- after `res = uzlib_uncompress(&d)`, before line 212 -/
  | after_call (chunk_len : Nat)
  /-- before `memcpy(flashed, tmp, chunk_len)`, line 217 -/
  | before_memcpy (chunk_len : Nat)
  /-- before `flashed += chunk_len`, line 218 -/
  | after_memcpy (chunk_len : Nat)
  /-- at `if (res != TINF_OK)`, line 221 -/
  | break_test
  /-- behind the loop, line 226 -/
  | loop_exit
  /-- the process has stopped on a fault -/
  | fault (f : Fault)
  deriving DecidableEq, Repr

/-- The state of `main` in its decompression loop: the globals, the locals
`dlen` and `res`, the fields `d.dest` and `d.dest_limit`, the program point,
and three history variables that the program does not have: the number of
calls of `uzlib_uncompress`, the bytes emitted so far, and the byte sequences
copied by the flushes so far. -/
structure Main where
  g : Sink
  dlen : Nat
  d_dest : Int
  d_dest_limit : Int
  res : Res
  pc : PC
  calls : Nat
  emitted : List Byte
  flushes : List (List Byte)

/-- The state at the loop head after lines 164-203, where `p` is the block
returned by `malloc(dlen)`: `outlen` is the trailer value, `dlen` is one more,
`dest`, `d.dest` and `flashed` are `p`, and `res` is `TINF_OK` (line 194 has
left otherwise). `d.dest_limit` is not yet set; it is written before its
first use. -/
def main_init (g : Sink) (p : Int) : Main :=
  { g := { g with outlen := trailer_dlen g, dest := p, flashed := p }
    dlen := dest_capacity g
    d_dest := p
    d_dest_limit := p
    res := Res.TINF_OK
    pc := PC.loop_test
    calls := 0
    emitted := []
    flushes := [] }

/-- One step of the loop of lines 205-224. Lines 206-211 up to the entry into
`uzlib_uncompress` are one step; inside the call every emitted byte is one
step (`align_write(d.dest, v); d.dest++`). -/
def step (eng : Engine) (s : Main) : Main :=
  match s.pc with
  | PC.loop_test =>
    if s.dlen ≠ 0 then
      let chunk_len := if s.dlen < TMPSZ then s.dlen else TMPSZ
      let answer := eng s.calls s.emitted.length chunk_len
      { s with
        g := { s.g with tmpshift := s.d_dest - s.g.dest }
        d_dest_limit := s.d_dest + chunk_len
        calls := s.calls + 1
        pc := PC.in_call answer.1 answer.2 chunk_len }
    else
      { s with pc := PC.loop_exit }
  | PC.in_call (v :: vs) r chunk_len =>
    match align_write s.g s.d_dest v with
    | .ok g1 =>
      { s with g := g1, d_dest := s.d_dest + 1, emitted := s.emitted ++ [v],
               pc := PC.in_call vs r chunk_len }
    | .error f => { s with pc := PC.fault f }
  | PC.in_call [] r chunk_len =>
    { s with res := r, pc := PC.after_call chunk_len }
  | PC.after_call chunk_len =>
    { s with dlen := (s.dlen + 2 ^ 32 - chunk_len) % 2 ^ 32, pc := PC.before_memcpy chunk_len }
  | PC.before_memcpy chunk_len =>
    { s with g := flush_copy s.g chunk_len
             flushes := s.flushes ++ [page_bytes s.g chunk_len]
             pc := PC.after_memcpy chunk_len }
  | PC.after_memcpy chunk_len =>
    { s with g := flush_advance s.g chunk_len, pc := PC.break_test }
  | PC.break_test =>
    if s.res ≠ Res.TINF_OK then { s with pc := PC.loop_exit } else { s with pc := PC.loop_test }
  | PC.loop_exit => s
  | PC.fault _ => s

/-- The state after `n` steps. -/
def run (eng : Engine) : Nat → Main → Main
  | 0, s => s
  | n + 1, s => run eng n (step eng s)

/-- The arithmetic of the loop, for a declared length `L` and a destination
block at `p`: how `flashed`, `dlen`, the number of flushes and the number of
bytes flushed are related at each program point (512 is `TMPSZ`). -/
def LoopArith (L : Nat) (p : Int) (s : Main) : Prop :=
  s.g.dest = p ∧ s.g.outlen = L ∧ 512 * s.calls ≤ L + 512 ∧
  match s.pc with
  | PC.loop_test =>
    s.g.flashed = p + (s.flushes.flatten.length : Int) ∧
    s.flushes.flatten.length + s.dlen = L + 1 ∧
    (s.dlen ≠ 0 → s.flushes.flatten.length = 512 * s.flushes.length) ∧
    512 * s.flushes.length < s.flushes.flatten.length + 512 ∧
    s.calls = s.flushes.length
  | PC.in_call _ _ c =>
    s.g.flashed = p + (s.flushes.flatten.length : Int) ∧
    s.flushes.flatten.length + s.dlen = L + 1 ∧
    s.flushes.flatten.length = 512 * s.flushes.length ∧
    1 ≤ c ∧ c ≤ 512 ∧ c ≤ s.dlen ∧ (c < 512 → c = s.dlen) ∧
    s.calls = s.flushes.length + 1
  | PC.after_call c =>
    s.g.flashed = p + (s.flushes.flatten.length : Int) ∧
    s.flushes.flatten.length + s.dlen = L + 1 ∧
    s.flushes.flatten.length = 512 * s.flushes.length ∧
    1 ≤ c ∧ c ≤ 512 ∧ c ≤ s.dlen ∧ (c < 512 → c = s.dlen) ∧
    s.calls = s.flushes.length + 1
  | PC.before_memcpy c =>
    s.g.flashed = p + (s.flushes.flatten.length : Int) ∧
    s.flushes.flatten.length + s.dlen + c = L + 1 ∧
    s.flushes.flatten.length = 512 * s.flushes.length ∧
    1 ≤ c ∧ c ≤ 512 ∧ (c < 512 → s.dlen = 0) ∧
    s.calls = s.flushes.length + 1
  | PC.after_memcpy c =>
    s.g.flashed + (c : Int) = p + (s.flushes.flatten.length : Int) ∧
    s.flushes.flatten.length + s.dlen = L + 1 ∧
    s.flushes.flatten.length + 512 = 512 * s.flushes.length + c ∧
    1 ≤ c ∧ c ≤ 512 ∧ (c < 512 → s.dlen = 0) ∧
    s.calls = s.flushes.length
  | PC.break_test =>
    s.g.flashed = p + (s.flushes.flatten.length : Int) ∧
    s.flushes.flatten.length + s.dlen = L + 1 ∧
    (s.dlen ≠ 0 → s.flushes.flatten.length = 512 * s.flushes.length) ∧
    512 * s.flushes.length < s.flushes.flatten.length + 512 ∧
    s.calls = s.flushes.length
  | PC.loop_exit =>
    s.g.flashed = p + (s.flushes.flatten.length : Int) ∧
    s.flushes.flatten.length + s.dlen = L + 1 ∧
    (s.dlen ≠ 0 → s.flushes.flatten.length = 512 * s.flushes.length) ∧
    512 * s.flushes.length < s.flushes.flatten.length + 512 ∧
    s.calls = s.flushes.length
  | PC.fault _ => True

/-- The data held by the sink during the loop, for a destination block at `p`:
`d.dest` is `p` plus the number of bytes emitted; the bytes copied by the
flushes so far are the bytes of the destination from `p` on; they agree with
the bytes emitted at the same positions; and the bytes emitted since the last
flush are in `tmp` from index 0 on. `strict` says whether the engine is known
to stop before `d.dest_limit` whenever it does not return `TINF_OK`. -/
def LoopData (strict : Prop) (p : Int) (s : Main) : Prop :=
  s.d_dest = p + (s.emitted.length : Int) ∧
  (∀ (i : Nat) (b : Byte), s.flushes.flatten[i]? = some b → s.g.mem (p + (i : Int)) = b) ∧
  (∀ (i : Nat) (b : Byte), s.emitted[i]? = some b → i < s.flushes.flatten.length →
    s.flushes.flatten[i]? = some b) ∧
  match s.pc with
  | PC.loop_test =>
    s.emitted.length = s.flushes.flatten.length ∧ s.res = Res.TINF_OK
  | PC.in_call pending r c =>
    s.g.tmpshift = (s.flushes.flatten.length : Int) ∧
    s.flushes.flatten.length ≤ s.emitted.length ∧
    s.emitted.length + pending.length ≤ s.flushes.flatten.length + c ∧
    (r = Res.TINF_OK → s.emitted.length + pending.length = s.flushes.flatten.length + c) ∧
    (strict → r ≠ Res.TINF_OK →
      s.emitted.length + pending.length < s.flushes.flatten.length + c) ∧
    (∀ (i : Nat) (b : Byte), s.emitted[i]? = some b → s.flushes.flatten.length ≤ i →
      s.g.tmp ((i : Int) - (s.flushes.flatten.length : Int)) = b)
  | PC.after_call c =>
    s.flushes.flatten.length ≤ s.emitted.length ∧
    s.emitted.length ≤ s.flushes.flatten.length + c ∧
    (s.res = Res.TINF_OK → s.emitted.length = s.flushes.flatten.length + c) ∧
    (strict → s.res ≠ Res.TINF_OK → s.emitted.length < s.flushes.flatten.length + c) ∧
    (∀ (i : Nat) (b : Byte), s.emitted[i]? = some b → s.flushes.flatten.length ≤ i →
      s.g.tmp ((i : Int) - (s.flushes.flatten.length : Int)) = b)
  | PC.before_memcpy c =>
    s.flushes.flatten.length ≤ s.emitted.length ∧
    s.emitted.length ≤ s.flushes.flatten.length + c ∧
    (s.res = Res.TINF_OK → s.emitted.length = s.flushes.flatten.length + c) ∧
    (strict → s.res ≠ Res.TINF_OK → s.emitted.length < s.flushes.flatten.length + c) ∧
    (∀ (i : Nat) (b : Byte), s.emitted[i]? = some b → s.flushes.flatten.length ≤ i →
      s.g.tmp ((i : Int) - (s.flushes.flatten.length : Int)) = b)
  | PC.after_memcpy c =>
    s.flushes.flatten.length ≤ s.emitted.length + c ∧
    c ≤ s.flushes.flatten.length ∧
    s.emitted.length ≤ s.flushes.flatten.length ∧
    (s.res = Res.TINF_OK → s.emitted.length = s.flushes.flatten.length) ∧
    (strict → s.res ≠ Res.TINF_OK → s.emitted.length < s.flushes.flatten.length) ∧
    (∀ (i : Nat) (b : Byte), s.emitted[i]? = some b → s.flushes.flatten.length ≤ i + c →
      s.g.tmp ((i : Int) + (c : Int) - (s.flushes.flatten.length : Int)) = b)
  | PC.break_test =>
    s.emitted.length ≤ s.flushes.flatten.length ∧
    (s.res = Res.TINF_OK → s.emitted.length = s.flushes.flatten.length) ∧
    (strict → s.res ≠ Res.TINF_OK →
      512 * s.flushes.length ≤ s.emitted.length + 512 ∧
      s.emitted.length < 512 * s.flushes.length ∧
      s.emitted.length < s.flushes.flatten.length)
  | PC.loop_exit =>
    s.emitted.length ≤ s.flushes.flatten.length ∧
    (s.res = Res.TINF_OK → s.emitted.length = s.flushes.flatten.length ∧ s.dlen = 0) ∧
    (strict → s.res ≠ Res.TINF_OK →
      512 * s.flushes.length ≤ s.emitted.length + 512 ∧
      s.emitted.length < 512 * s.flushes.length ∧
      s.emitted.length < s.flushes.flatten.length)
  | PC.fault _ => True

/-- The loop has come to an end: the program point is behind the loop, or the
process has stopped on a fault. -/
def Terminal (s : Main) : Prop :=
  s.pc = PC.loop_exit ∨ ∃ f, s.pc = PC.fault f

/-- What holds during a run of the loop with the engine `stream_engine xs`:
the bytes emitted are the first bytes of `xs`; within a call the bytes still to
be emitted are the next bytes of `xs`; and the engine returns `TINF_DONE` only
with the last byte of `xs`, and no other code than `TINF_OK` and `TINF_DONE`. -/
def StreamData (xs : List Byte) (s : Main) : Prop :=
  (∀ (i : Nat) (b : Byte), s.emitted[i]? = some b → xs[i]? = some b) ∧
  s.emitted.length ≤ xs.length ∧
  match s.pc with
  | PC.in_call pending r _ =>
    (∀ (j : Nat) (b : Byte), pending[j]? = some b → xs[s.emitted.length + j]? = some b) ∧
    s.emitted.length + pending.length ≤ xs.length ∧
    (r = Res.TINF_OK ∨ (r = Res.TINF_DONE ∧ s.emitted.length + pending.length = xs.length))
  | PC.fault _ => True
  | _ => s.res = Res.TINF_OK ∨ (s.res = Res.TINF_DONE ∧ s.emitted.length = xs.length)

/-- Sink faithfulness at a state: every byte emitted so far is what
`align_read` returns at its address, `dest + i` for the `i`-th byte. -/
def Faithful (s : Main) : Prop :=
  ∀ (i : Nat) (hi : i < s.emitted.length),
    align_read s.g (s.g.dest + (i : Int)) = .ok (s.emitted.get ⟨i, hi⟩)

/-- A sink for the examples: `tmp` at address 4096, all bytes zero. -/
def sink0 : Sink :=
  { tmp := fun _ => 0, tmp_addr := 4096, mem := fun _ => 0, len := 0, outlen := 0,
    source := 0, dest := 0, tmpshift := 0, flashed := 0 }

/-- An input of 22 bytes at address 8192 for the examples, with the trailer
bytes `b0 b1 b2 b3` (the declared length, low byte first) and zeros before. -/
def input_declaring (b0 b1 b2 b3 : Byte) : Sink :=
  { sink0 with
    len := 22
    source := 8192
    mem := fun a =>
      if a = 8210 then b0 else if a = 8211 then b1 else if a = 8212 then b2
      else if a = 8213 then b3 else 0 }

end Uzf

namespace Uzf

/-! ## The sink operations -/

theorem WITHIN_iff (p start len : Int) :
    WITHIN p start len = true ↔ start ≤ p ∧ p < start + len := by
  unfold WITHIN
  simp only [Bool.and_eq_true, decide_eq_true_eq]
  constructor <;> intro h <;> constructor <;> omega

theorem WITHIN_false_iff (p start len : Int) :
    WITHIN p start len = false ↔ ¬ (start ≤ p ∧ p < start + len) := by
  rw [← WITHIN_iff]
  cases WITHIN p start len <;> simp

theorem align_read_page (g : Sink) (a : Int) (h1 : g.flashed ≤ a)
    (h2 : a < g.flashed + (TMPSZ : Int)) :
    align_read g a = .ok (g.tmp (a - g.flashed)) := by
  have h : WITHIN a g.flashed TMPSZ = true := (WITHIN_iff _ _ _).2 ⟨h1, h2⟩
  simp [align_read, h]

theorem align_read_committed (g : Sink) (a : Int) (h1 : g.dest ≤ a) (h2 : a < g.flashed) :
    align_read g a = .ok (g.mem a) := by
  have h : WITHIN a g.flashed TMPSZ = false := (WITHIN_false_iff _ _ _).2 (by omega)
  have h3 : WITHIN a g.dest (g.flashed - g.dest) = true := (WITHIN_iff _ _ _).2 ⟨h1, by omega⟩
  simp [align_read, h, h3]

/-- C2: a flush (`memcpy(flashed, tmp, chunk_len); flashed += chunk_len` with
`1 <= chunk_len <= TMPSZ`) does not change what `align_read` returns at any
address `a` with `dest <= a < flashed + chunk_len`: the byte served from `tmp`
before the flush is the byte served from the destination after it. -/
theorem flush_preserves_reads (g : Sink) (chunk_len : Nat) (a : Int)
    (hc1 : 1 ≤ chunk_len) (hc2 : chunk_len ≤ TMPSZ)
    (h1 : g.dest ≤ a) (h2 : a < g.flashed + chunk_len) :
    align_read (flush g chunk_len) a = align_read g a := by
  have hT : (TMPSZ : Int) = 512 := rfl
  have hc : (chunk_len : Int) ≤ 512 := by have := hc2; unfold TMPSZ at this; omega
  have hafter : align_read (flush g chunk_len) a = .ok ((flush g chunk_len).mem a) := by
    apply align_read_committed
    · exact h1
    · show a < g.flashed + chunk_len
      exact h2
  rw [hafter]
  by_cases hlt : a < g.flashed
  · rw [align_read_committed g a h1 hlt]
    have : ¬ (g.flashed ≤ a ∧ a < g.flashed + (chunk_len : Int)) := by omega
    simp [flush, flush_advance, flush_copy, this]
  · rw [align_read_page g a (by omega) (by omega)]
    have : g.flashed ≤ a ∧ a < g.flashed + (chunk_len : Int) := by omega
    simp [flush, flush_advance, flush_copy, this]

theorem flush_preserves_reads_witness :
    align_read (flush { sink0 with dest := 65536, flashed := 66048, tmp := fun j => if j = 2 then 9 else 0 } 4) 66050
      = align_read { sink0 with dest := 65536, flashed := 66048, tmp := fun j => if j = 2 then 9 else 0 } 66050 :=
  flush_preserves_reads _ 4 66050 (by decide) (by decide) (by decide) (by decide)

/-- C3: for an address `d` in the open page `[dest+tmpshift, dest+tmpshift+TMPSZ)`,
a call `align_write(d, v)` whose assertion does not fail stores `v` in `tmp` at
the index `d - (dest+tmpshift)`, which lies in `[0, TMPSZ)`, and changes nothing
else: every other byte of `tmp`, the memory of the buffers, and `flashed`,
`tmpshift`, `dest` and `outlen` are as before. -/
theorem align_write_in_page (g : Sink) (d : Int) (v : Byte)
    (h1 : g.dest + g.tmpshift ≤ d) (h2 : d < g.dest + g.tmpshift + (TMPSZ : Int))
    (h3 : align_write g d v ≠ .error .assert_failed) :
    ∃ g1, align_write g d v = .ok g1 ∧
      0 ≤ d - (g.dest + g.tmpshift) ∧ d - (g.dest + g.tmpshift) < (TMPSZ : Int) ∧
      g1.tmp (d - (g.dest + g.tmpshift)) = v ∧
      (∀ j, j ≠ d - (g.dest + g.tmpshift) → g1.tmp j = g.tmp j) ∧
      g1.mem = g.mem ∧ g1.flashed = g.flashed ∧ g1.tmpshift = g.tmpshift ∧
      g1.dest = g.dest ∧ g1.outlen = g.outlen := by
  have hidx : d - g.dest - g.tmpshift = d - (g.dest + g.tmpshift) := by omega
  have hb : 0 ≤ d - g.dest - g.tmpshift ∧ d - g.dest - g.tmpshift < (TMPSZ : Int) := by omega
  by_cases ha : d - g.tmp_addr ≥ 0 ∧ g.tmp_addr + (TMPSZ : Int) - d < (g.outlen : Int)
  · refine ⟨{ g with tmp := Function.update g.tmp (d - g.dest - g.tmpshift) v }, ?_, ?_⟩
    · simp only [align_write, ha, hb, and_self, if_true]
    · refine ⟨by omega, by omega, ?_, ?_, rfl, rfl, rfl, rfl, rfl⟩
      · show Function.update g.tmp (d - g.dest - g.tmpshift) v (d - (g.dest + g.tmpshift)) = v
        rw [hidx]
        exact Function.update_same (d - (g.dest + g.tmpshift)) v g.tmp
      · intro j hj
        show Function.update g.tmp (d - g.dest - g.tmpshift) v j = g.tmp j
        rw [hidx]
        exact Function.update_noteq hj v g.tmp
  · exact absurd (by simp only [align_write, ha, if_false]) h3

theorem align_write_in_page_witness :
    ∃ g1, align_write { sink0 with dest := 65536, outlen := 10 } 65539 7 = .ok g1 ∧
      (0 : Int) ≤ 65539 - (65536 + 0) ∧ (65539 : Int) - (65536 + 0) < (TMPSZ : Int) ∧
      g1.tmp (65539 - (65536 + 0)) = 7 ∧
      (∀ j, j ≠ (65539 : Int) - (65536 + 0) → g1.tmp j = 0) ∧
      g1.mem = sink0.mem ∧ g1.flashed = 0 ∧ g1.tmpshift = 0 ∧
      g1.dest = 65536 ∧ g1.outlen = 10 :=
  align_write_in_page { sink0 with dest := 65536, outlen := 10 } 65539 7
    (by decide) (by decide) (by simp [align_write, sink0, TMPSZ])

/-- C4: for an address `a` of the output produced so far (`dest <= a < w` with the
write position `w <= flashed + TMPSZ`), `align_read(a)` does not abort and
returns `tmp[a - flashed]` when `a >= flashed`, and the byte of the destination
buffer at `a` otherwise. -/
theorem align_read_produced (g : Sink) (a w : Int)
    (h1 : g.dest ≤ a) (h2 : a < w) (h3 : w ≤ g.flashed + (TMPSZ : Int)) :
    align_read g a = .ok (if g.flashed ≤ a then g.tmp (a - g.flashed) else g.mem a) := by
  by_cases h : g.flashed ≤ a
  · rw [align_read_page g a h (by omega)]
    simp [h]
  · rw [align_read_committed g a h1 (by omega)]
    simp [h]

theorem align_read_produced_witness :
    align_read { sink0 with dest := 65536, flashed := 66048 } 66050
      = .ok (if (66048 : Int) ≤ 66050 then sink0.tmp (66050 - 66048) else sink0.mem 66050) :=
  align_read_produced { sink0 with dest := 65536, flashed := 66048 } 66050 66052
    (by decide) (by decide) (by decide)

/-- C5, at the failing input: with `tmp` at address 4096, `dest = 65536`,
`tmpshift = 0` and `outlen = 100`, the address `d = dest + 600` lies outside the
open page, yet the assertion of `align_write` holds and the store is made with
index 600, outside `tmp`. The same happens for `d = 4200`, an address inside the
array `tmp` itself, with `outlen = 1000`: the assertion holds and the index of
the store is `-61336`. -/
theorem align_write_outside_page :
    ¬ ((65536 : Int) + 0 ≤ 66136 ∧ (66136 : Int) < 65536 + 0 + (TMPSZ : Int)) ∧
    align_write { sink0 with dest := 65536, outlen := 100 } 66136 7
      = .error (.out_of_bounds 600) ∧
    align_write { sink0 with dest := 65536, outlen := 100 } 66136 7
      ≠ .error .assert_failed ∧
    ¬ ((65536 : Int) + 0 ≤ 4200 ∧ (4200 : Int) < 65536 + 0 + (TMPSZ : Int)) ∧
    align_write { sink0 with dest := 65536, outlen := 1000 } 4200 7
      = .error (.out_of_bounds (-61336)) := by
  refine ⟨by decide, by simp [align_write, sink0, TMPSZ], by simp [align_write, sink0, TMPSZ],
    by decide, by simp [align_write, sink0, TMPSZ]⟩

/-- C6 as stated fails: the address 105 lies before `dest`, in neither the
committed region nor the open page, but inside the input buffer
`[source, source+len)`, and `align_read` returns the byte stored there. -/
theorem align_read_source_counterexample :
    (105 : Int) < 65536 ∧
    ¬ ((65536 : Int) ≤ 105 ∧ (105 : Int) < 66048) ∧
    ¬ ((66048 : Int) ≤ 105 ∧ (105 : Int) < 66048 + (TMPSZ : Int)) ∧
    align_read { sink0 with source := 100, len := 10, dest := 65536, flashed := 66048,
                            mem := fun _ => 42 } 105 = .ok 42 := by
  refine ⟨by decide, by decide, by decide, by simp [align_read, WITHIN, sink0, TMPSZ]⟩

/-- C6, amended: for every address `a` that lies in none of the committed region
`[dest, flashed)`, the open page `[flashed, flashed+TMPSZ)` and the input buffer
`[source, source+len)`, `align_read(a)` fails its assertion and returns no byte. -/
theorem align_read_outside_aborts (g : Sink) (a : Int)
    (h1 : ¬ (g.dest ≤ a ∧ a < g.flashed))
    (h2 : ¬ (g.flashed ≤ a ∧ a < g.flashed + (TMPSZ : Int)))
    (h3 : ¬ (g.source ≤ a ∧ a < g.source + (g.len : Int))) :
    align_read g a = .error .assert_failed := by
  have e1 : WITHIN a g.flashed TMPSZ = false := (WITHIN_false_iff _ _ _).2 h2
  have e2 : WITHIN a g.source g.len = false := (WITHIN_false_iff _ _ _).2 h3
  have e3 : WITHIN a g.dest (g.flashed - g.dest) = false :=
    (WITHIN_false_iff _ _ _).2 (by omega)
  simp [align_read, e1, e2, e3]

theorem align_read_outside_aborts_witness :
    align_read { sink0 with source := 100, len := 10, dest := 65536, flashed := 66048 } 65000
      = .error .assert_failed :=
  align_read_outside_aborts
    { sink0 with source := 100, len := 10, dest := 65536, flashed := 66048 } 65000
    (by decide) (by decide) (by decide)

/-- C8, at the failing input: for an input of 24 bytes whose last four bytes are
`FF FF FF FF` the declared length is `2^32 - 1`, the increment wraps, and the
capacity requested for the destination is 0, not greater than the declared
length. -/
theorem dest_capacity_wraps :
    trailer_dlen { sink0 with source := 100, len := 24, mem := fun _ => 255 } = 4294967295 ∧
    dest_capacity { sink0 with source := 100, len := 24, mem := fun _ => 255 } = 0 ∧
    ¬ (trailer_dlen { sink0 with source := 100, len := 24, mem := fun _ => 255 }
        < dest_capacity { sink0 with source := 100, len := 24, mem := fun _ => 255 }) := by
  refine ⟨by decide, by decide, by decide⟩

/-! ## The loop of `main` -/

theorem page_bytes_length (g : Sink) (n : Nat) : (page_bytes g n).length = n := by
  unfold page_bytes
  rw [List.length_map, List.length_range]

theorem flatten_snoc_length (fl : List (List Byte)) (pg : List Byte) :
    (fl ++ [pg]).flatten.length = fl.flatten.length + pg.length := by
  rw [List.flatten_append, List.length_append]
  simp

theorem align_write_ok_fields (g g1 : Sink) (d : Int) (v : Byte)
    (h : align_write g d v = .ok g1) :
    g1.mem = g.mem ∧ g1.dest = g.dest ∧ g1.outlen = g.outlen ∧ g1.flashed = g.flashed ∧
    g1.tmpshift = g.tmpshift ∧ g1.tmp_addr = g.tmp_addr ∧ g1.source = g.source ∧
    g1.len = g.len ∧ g1.tmp = Function.update g.tmp (d - g.dest - g.tmpshift) v ∧
    0 ≤ d - g.dest - g.tmpshift ∧ d - g.dest - g.tmpshift < (TMPSZ : Int) := by
  unfold align_write at h
  split at h
  · simp only at h
    split at h
    · rename_i hb
      cases h
      exact ⟨rfl, rfl, rfl, rfl, rfl, rfl, rfl, rfl, rfl, hb.1, hb.2⟩
    · cases h
  · cases h

theorem loopArith_step (eng : Engine) (L : Nat) (p : Int) (hL : L + 1 < 2 ^ 32)
    (s : Main) (h : LoopArith L p s) : LoopArith L p (step eng s) := by
  obtain ⟨g, dlen, dd, dl, res, pc, calls, em, fls⟩ := s
  obtain ⟨hd, ho, hcalls, h⟩ := h
  simp only at hd ho hcalls h
  cases pc with
  | loop_test =>
    simp only at h
    obtain ⟨h1, h2, h3, h4, h5⟩ := h
    by_cases hz : dlen = 0
    · subst hz
      simp only [step, ne_eq, not_true_eq_false, if_false, LoopArith]
      exact ⟨hd, ho, hcalls, h1, h2, fun hf => hf.elim, h4, h5⟩
    · simp only [step, ne_eq, hz, not_false_eq_true, if_true, LoopArith]
      have h3 := h3 hz
      refine ⟨hd, ho, by omega, h1, h2, h3, ?_, ?_, ?_, ?_, by omega⟩ <;>
        (unfold TMPSZ; split <;> omega)
  | in_call pending r c =>
    simp only at h
    obtain ⟨h1, h2, h3, h4, h5, h6, h7, h8⟩ := h
    cases pending with
    | nil =>
      simp only [step, LoopArith]
      exact ⟨hd, ho, hcalls, h1, h2, h3, h4, h5, h6, h7, h8⟩
    | cons v vs =>
      simp only [step]
      cases haw : align_write g dd v with
      | error f => simp only [LoopArith]; exact ⟨hd, ho, hcalls, trivial⟩
      | ok g1 =>
        obtain ⟨-, e2, e3, e4, -⟩ := align_write_ok_fields g g1 dd v haw
        simp only [LoopArith]
        exact ⟨by rw [e2]; exact hd, by rw [e3]; exact ho, hcalls, by rw [e4]; exact h1,
          h2, h3, h4, h5, h6, h7, h8⟩
  | after_call c =>
    simp only at h
    obtain ⟨h1, h2, h3, h4, h5, h6, h7, h8⟩ := h
    simp only [step, LoopArith]
    have hm : (dlen + 2 ^ 32 - c) % 2 ^ 32 = dlen - c := by omega
    rw [hm]
    exact ⟨hd, ho, hcalls, h1, by omega, h3, h4, h5, by omega, h8⟩
  | before_memcpy c =>
    simp only at h
    obtain ⟨h1, h2, h3, h4, h5, h6, h7⟩ := h
    simp only [step, LoopArith, flatten_snoc_length, page_bytes_length, List.length_append,
      List.length_singleton, flush_copy]
    refine ⟨hd, ho, hcalls, ?_, by omega, by omega, h4, h5, h6, h7⟩
    rw [h1]; push_cast; ring
  | after_memcpy c =>
    simp only at h
    obtain ⟨h1, h2, h3, h4, h5, h6, h7⟩ := h
    simp only [step, LoopArith, flush_advance]
    exact ⟨hd, ho, hcalls, h1, h2, by intro hz; omega, by omega, h7⟩
  | break_test =>
    simp only at h
    by_cases hr : res = Res.TINF_OK
    · simp only [step, hr, ne_eq, not_true_eq_false, if_false, LoopArith]
      exact ⟨hd, ho, hcalls, h⟩
    · simp only [step, hr, ne_eq, not_false_eq_true, if_true, LoopArith]
      exact ⟨hd, ho, hcalls, h⟩
  | loop_exit =>
    simp only [step, LoopArith]
    exact ⟨hd, ho, hcalls, h⟩
  | fault f =>
    simp only [step, LoopArith]
    exact ⟨hd, ho, hcalls, trivial⟩

theorem loopArith_init (g : Sink) (p : Int) (hL : trailer_dlen g + 1 < 2 ^ 32) :
    LoopArith (trailer_dlen g) p (main_init g p) := by
  have hcap : dest_capacity g = trailer_dlen g + 1 := by
    unfold dest_capacity
    exact Nat.mod_eq_of_lt hL
  refine ⟨rfl, rfl, Nat.le_add_left _ _, ?_⟩
  show (p : Int) = p + (([] : List (List Byte)).flatten.length : Int) ∧
    ([] : List (List Byte)).flatten.length + dest_capacity g = trailer_dlen g + 1 ∧
    (dest_capacity g ≠ 0 →
      ([] : List (List Byte)).flatten.length = 512 * ([] : List (List Byte)).length) ∧
    512 * ([] : List (List Byte)).length < ([] : List (List Byte)).flatten.length + 512 ∧
    0 = ([] : List (List Byte)).length
  rw [hcap]
  simp

theorem loopArith_run (eng : Engine) (L : Nat) (p : Int) (hL : L + 1 < 2 ^ 32)
    (n : Nat) (s : Main) (h : LoopArith L p s) : LoopArith L p (run eng n s) := by
  induction n generalizing s with
  | zero => exact h
  | succ n ih => exact ih _ (loopArith_step eng L p hL s h)

theorem getElem?_lt_of_some {l : List Byte} {i : Nat} {b : Byte} (h : l[i]? = some b) :
    i < l.length := by
  by_contra hn
  rw [List.getElem?_eq_none (by omega)] at h
  cases h

theorem getElem?_snoc_some {l : List Byte} {v : Byte} {i : Nat} {b : Byte}
    (h : (l ++ [v])[i]? = some b) :
    (i < l.length ∧ l[i]? = some b) ∨ (i = l.length ∧ b = v) := by
  by_cases hi : i < l.length
  · rw [List.getElem?_append_left hi] at h
    exact Or.inl ⟨hi, h⟩
  · have hlt := getElem?_lt_of_some h
    rw [List.length_append, List.length_singleton] at hlt
    have hi2 : i = l.length := by omega
    subst hi2
    rw [List.getElem?_append_right (Nat.le_refl _)] at h
    simp at h
    exact Or.inr ⟨rfl, h.symm⟩

theorem page_bytes_getElem? (g : Sink) (c k : Nat) (hk : k < c) :
    (page_bytes g c)[k]? = some (g.tmp (Int.ofNat k)) := by
  unfold page_bytes
  rw [List.getElem?_map, List.getElem?_range hk]
  rfl

theorem flatten_snoc (fl : List (List Byte)) (pg : List Byte) :
    (fl ++ [pg]).flatten = fl.flatten ++ pg := by
  rw [List.flatten_append]
  simp

theorem getElem?_append_page_some {J : List Byte} {g : Sink} {c i : Nat} {b : Byte}
    (h : (J ++ page_bytes g c)[i]? = some b) :
    (i < J.length ∧ J[i]? = some b) ∨
    (J.length ≤ i ∧ i < J.length + c ∧ b = g.tmp (Int.ofNat (i - J.length))) := by
  by_cases hi : i < J.length
  · rw [List.getElem?_append_left hi] at h
    exact Or.inl ⟨hi, h⟩
  · have hlt := getElem?_lt_of_some h
    rw [List.length_append, page_bytes_length] at hlt
    rw [List.getElem?_append_right (by omega), page_bytes_getElem? g c _ (by omega)] at h
    exact Or.inr ⟨by omega, hlt, (Option.some.inj h).symm⟩

theorem getElem?_append_page_of_ge (J : List Byte) (g : Sink) (c i : Nat)
    (h1 : J.length ≤ i) (h2 : i < J.length + c) :
    (J ++ page_bytes g c)[i]? = some (g.tmp (Int.ofNat (i - J.length))) := by
  rw [List.getElem?_append_right h1, page_bytes_getElem? g c _ (by omega)]

theorem loopData_step (eng : Engine) (strict : Prop) (L : Nat) (p : Int)
    (hc : EngineContract eng) (hs : strict → EngineStopsEarly eng)
    (s : Main) (ha : LoopArith L p s) (h : LoopData strict p s) :
    LoopData strict p (step eng s) := by
  obtain ⟨g, dlen, dd, dl, res, pc, calls, em, fls⟩ := s
  obtain ⟨hd, ho, hcalls, ha⟩ := ha
  obtain ⟨hdd, hI1, hI2, h⟩ := h
  simp only at hd ho hcalls ha hdd hI1 hI2 h
  cases pc with
  | loop_test =>
    simp only at h ha
    obtain ⟨he, hres⟩ := h
    by_cases hz : dlen = 0
    · subst hz
      simp only [step, ne_eq, not_true_eq_false, if_false, LoopData]
      exact ⟨hdd, hI1, hI2, by omega, fun _ => ⟨he, trivial⟩, fun _ hne => absurd hres hne⟩
    · simp only [step, ne_eq, hz, not_false_eq_true, if_true, LoopData]
      obtain ⟨hk1, hk2⟩ := hc calls em.length (if dlen < TMPSZ then dlen else TMPSZ)
      refine ⟨hdd, hI1, hI2, ?_, by omega, by omega, ?_, ?_, ?_⟩
      · rw [hdd, hd, he]; ring
      · intro hr
        have := hk2 hr
        omega
      · intro hst hr
        have := hs hst calls em.length (if dlen < TMPSZ then dlen else TMPSZ) hr
        omega
      · intro i b hi hge
        have := getElem?_lt_of_some hi
        omega
  | in_call pending r c =>
    simp only at h ha
    obtain ⟨ht, h1, h2, h3, h4, h5⟩ := h
    cases pending with
    | nil =>
      simp only [step, LoopData]
      simp only [List.length_nil, Nat.add_zero] at h2 h3 h4
      exact ⟨hdd, hI1, hI2, h1, h2, h3, h4, h5⟩
    | cons v vs =>
      simp only [step]
      simp only [List.length_cons] at h2 h3 h4
      cases haw : align_write g dd v with
      | error f => simp only [LoopData]; exact ⟨hdd, hI1, hI2, trivial⟩
      | ok g1 =>
        obtain ⟨e1, e2, e3, e4, e5, -, -, -, e9, -, -⟩ := align_write_ok_fields g g1 dd v haw
        have hidx : dd - g.dest - g.tmpshift
            = (em.length : Int) - (fls.flatten.length : Int) := by
          rw [hdd, hd, ht]; ring
        simp only [LoopData, List.length_append, List.length_singleton]
        refine ⟨?_, ?_, ?_, ?_, by omega, by omega, ?_, ?_, ?_⟩
        · rw [hdd]; push_cast; ring
        · intro i b hi
          rw [e1]
          exact hI1 i b hi
        · intro i b hi hlt
          rcases getElem?_snoc_some hi with ⟨-, hi2⟩ | ⟨hi2, -⟩
          · exact hI2 i b hi2 hlt
          · omega
        · rw [e5]; exact ht
        · intro hr
          have := h3 hr
          omega
        · intro hst hr
          have := h4 hst hr
          omega
        · intro i b hi hge
          rw [e9, hidx]
          rcases getElem?_snoc_some hi with ⟨hlt, hi2⟩ | ⟨hi2, hb⟩
          · rw [Function.update_noteq (by omega)]
            exact h5 i b hi2 hge
          · subst hi2
            rw [Function.update_same]
            exact hb.symm
  | after_call c =>
    simp only at h ha
    simp only [step, LoopData]
    exact ⟨hdd, hI1, hI2, h⟩
  | before_memcpy c =>
    simp only at h ha
    obtain ⟨h1, h2, h3, h4, h5⟩ := h
    obtain ⟨a1, a2, a3, a4, a5, a6, a7⟩ := ha
    simp only [step, LoopData, flatten_snoc, List.length_append, page_bytes_length]
    refine ⟨hdd, ?_, ?_, by omega, by omega, by omega, ?_, ?_, ?_⟩
    · intro i b hi
      rcases getElem?_append_page_some hi with ⟨hlt, hi2⟩ | ⟨hge, hlt, hb⟩
      · have hn : ¬ (g.flashed ≤ p + (i : Int) ∧ p + (i : Int) < g.flashed + (c : Int)) := by
          omega
        simp only [flush_copy, hn, if_false]
        exact hI1 i b hi2
      · have hy : g.flashed ≤ p + (i : Int) ∧ p + (i : Int) < g.flashed + (c : Int) := by
          omega
        simp only [flush_copy, hy, and_self, if_true]
        rw [hb]
        congr 1
        rw [a1]
        simp only [Int.ofNat_eq_coe]
        omega
    · intro i b hi hlt
      by_cases hi2 : i < fls.flatten.length
      · rw [List.getElem?_append_left hi2]
        exact hI2 i b hi hi2
      · rw [getElem?_append_page_of_ge _ _ _ _ (by omega) (by omega)]
        have := h5 i b hi (by omega)
        rw [← this]
        congr 2
        simp only [Int.ofNat_eq_coe]
        omega
    · intro hr
      have := h3 hr
      omega
    · intro hst hr
      have := h4 hst hr
      omega
    · intro i b hi hge
      have := h5 i b hi (by omega)
      rw [← this]
      show g.tmp _ = g.tmp _
      congr 1
      push_cast
      ring
  | after_memcpy c =>
    simp only at h ha
    obtain ⟨h1, h2, h3, h4, h5, h6⟩ := h
    obtain ⟨a1, a2, a3, a4, a5, a6, a7⟩ := ha
    simp only [step, LoopData, flush_advance]
    refine ⟨hdd, hI1, hI2, h3, h4, ?_⟩
    intro hst hr
    have := h5 hst hr
    omega
  | break_test =>
    simp only at h ha
    obtain ⟨h1, h2, h3⟩ := h
    by_cases hr : res = Res.TINF_OK
    · simp only [step, hr, ne_eq, not_true_eq_false, if_false, LoopData]
      exact ⟨hdd, hI1, hI2, h2 hr, trivial⟩
    · simp only [step, hr, ne_eq, not_false_eq_true, if_true, LoopData]
      exact ⟨hdd, hI1, hI2, h1, fun hF => hF.elim, fun hst _ => h3 hst hr⟩
  | loop_exit =>
    simp only [step, LoopData]
    exact ⟨hdd, hI1, hI2, h⟩
  | fault f =>
    simp only [step, LoopData]
    exact ⟨hdd, hI1, hI2, trivial⟩

theorem loopData_init (strict : Prop) (g : Sink) (p : Int) :
    LoopData strict p (main_init g p) := by
  refine ⟨?_, ?_, ?_, ?_, ?_⟩
  · show p = p + (([] : List Byte).length : Int)
    simp
  · intro i b hi
    simp [main_init] at hi
  · intro i b hi
    simp [main_init] at hi
  · rfl
  · rfl

theorem loop_invariants (eng : Engine) (strict : Prop) (L : Nat) (p : Int)
    (hL : L + 1 < 2 ^ 32) (hc : EngineContract eng) (hs : strict → EngineStopsEarly eng)
    (n : Nat) (s : Main) (ha : LoopArith L p s) (h : LoopData strict p s) :
    LoopArith L p (run eng n s) ∧ LoopData strict p (run eng n s) := by
  induction n generalizing s with
  | zero => exact ⟨ha, h⟩
  | succ n ih =>
    exact ih _ (loopArith_step eng L p hL s ha) (loopData_step eng strict L p hc hs s ha h)

/-! ## Consequences of the invariants -/

theorem stream_engine_contract (xs : List Byte) : EngineContract (stream_engine xs) := by
  intro k pos room
  unfold stream_engine
  by_cases h : room ≤ (xs.drop pos).length
  · simp only [h, if_true, List.length_take]
    exact ⟨by omega, fun _ => by omega⟩
  · simp only [h, if_false]
    exact ⟨by omega, fun hr => by cases hr⟩

theorem stream_engine_stops_early (xs : List Byte) : EngineStopsEarly (stream_engine xs) := by
  intro k pos room
  unfold stream_engine
  by_cases h : room ≤ (xs.drop pos).length
  · simp only [h, if_true]
    intro hr
    exact absurd rfl hr
  · simp only [h, if_false]
    intro _
    omega

theorem invariants_from_init (eng : Engine) (strict : Prop) (g : Sink) (p : Int) (n : Nat)
    (hL : trailer_dlen g + 1 < 2 ^ 32) (hc : EngineContract eng)
    (hs : strict → EngineStopsEarly eng) :
    LoopArith (trailer_dlen g) p (run eng n (main_init g p)) ∧
    LoopData strict p (run eng n (main_init g p)) :=
  loop_invariants eng strict (trailer_dlen g) p hL hc hs n (main_init g p)
    (loopArith_init g p hL) (loopData_init strict g p)

theorem take_eq_of_getElem? (J em : List Byte) (hle : em.length ≤ J.length)
    (h : ∀ (i : Nat) (b : Byte), em[i]? = some b → J[i]? = some b) :
    J.take em.length = em := by
  apply List.ext_getElem?
  intro i
  by_cases hi : i < em.length
  · rw [List.getElem?_take_of_lt hi]
    have hsome : em[i]? = some (em.get ⟨i, hi⟩) := List.getElem?_eq_getElem hi
    rw [hsome]
    exact h i _ hsome
  · rw [List.getElem?_eq_none (by rw [List.length_take]; omega),
      List.getElem?_eq_none (by omega)]

/-- The reading of `Faithful` through optional indexing. -/
theorem faithful_iff (s : Main) :
    Faithful s ↔
    ∀ (i : Nat) (b : Byte), s.emitted[i]? = some b →
      align_read s.g (s.g.dest + (i : Int)) = .ok b := by
  constructor
  · intro h i b hi
    have hlt := getElem?_lt_of_some hi
    have := h i hlt
    rw [this]
    have hsome : s.emitted[i]? = some (s.emitted.get ⟨i, hlt⟩) := List.getElem?_eq_getElem hlt
    rw [hsome] at hi
    rw [Option.some.inj hi]
  · intro h i hi
    exact h i _ (List.getElem?_eq_getElem hi)

theorem faithful_of_invariants (strict : Prop) (L : Nat) (p : Int) (s : Main)
    (ha : LoopArith L p s) (h : LoopData strict p s) (hnf : ∀ f, s.pc ≠ PC.fault f) :
    Faithful s := by
  rw [faithful_iff]
  obtain ⟨g, dlen, dd, dl, res, pc, calls, em, fls⟩ := s
  obtain ⟨hd, ho, hcalls, ha⟩ := ha
  obtain ⟨hdd, hI1, hI2, h⟩ := h
  simp only at hd ho hcalls ha hdd hI1 hI2 h hnf ⊢
  have hT : (TMPSZ : Int) = 512 := rfl
  have committed : ∀ (i : Nat) (b : Byte), em[i]? = some b → i < fls.flatten.length →
      p + (i : Int) < g.flashed → align_read g (g.dest + (i : Int)) = .ok b := by
    intro i b hi hlt hfl
    rw [hd, align_read_committed g _ (by rw [hd]; omega) hfl, hI1 i b (hI2 i b hi hlt)]
  cases pc with
  | loop_test =>
    simp only at h ha
    intro i b hi
    have := getElem?_lt_of_some hi
    exact committed i b hi (by omega) (by omega)
  | in_call pending r c =>
    simp only at h ha
    obtain ⟨ht, h1, h2, h3, h4, h5⟩ := h
    intro i b hi
    have := getElem?_lt_of_some hi
    by_cases hlt : i < fls.flatten.length
    · exact committed i b hi hlt (by omega)
    · rw [hd, align_read_page g _ (by omega) (by omega), ← h5 i b hi (by omega)]
      congr 2
      omega
  | after_call c =>
    simp only at h ha
    obtain ⟨h1, h2, h3, h4, h5⟩ := h
    intro i b hi
    have := getElem?_lt_of_some hi
    by_cases hlt : i < fls.flatten.length
    · exact committed i b hi hlt (by omega)
    · rw [hd, align_read_page g _ (by omega) (by omega), ← h5 i b hi (by omega)]
      congr 2
      omega
  | before_memcpy c =>
    simp only at h ha
    obtain ⟨h1, h2, h3, h4, h5⟩ := h
    intro i b hi
    have := getElem?_lt_of_some hi
    by_cases hlt : i < fls.flatten.length
    · exact committed i b hi hlt (by omega)
    · rw [hd, align_read_page g _ (by omega) (by omega), ← h5 i b hi (by omega)]
      congr 2
      omega
  | after_memcpy c =>
    simp only at h ha
    obtain ⟨h1, h2, h3, h4, h5, h6⟩ := h
    intro i b hi
    have := getElem?_lt_of_some hi
    by_cases hlt : i + c < fls.flatten.length
    · exact committed i b hi (by omega) (by omega)
    · rw [hd, align_read_page g _ (by omega) (by omega), ← h6 i b hi (by omega)]
      congr 2
      omega
  | break_test =>
    simp only at h ha
    intro i b hi
    have := getElem?_lt_of_some hi
    exact committed i b hi (by omega) (by omega)
  | loop_exit =>
    simp only at h ha
    intro i b hi
    have := getElem?_lt_of_some hi
    exact committed i b hi (by omega) (by omega)
  | fault f => exact absurd rfl (hnf f)

theorem step_fault_frame (eng : Engine) (s : Main) (f : Fault)
    (h : (step eng s).pc = PC.fault f) :
    (step eng s).g = s.g ∧ (step eng s).emitted = s.emitted := by
  obtain ⟨g, dlen, dd, dl, res, pc, calls, em, fls⟩ := s
  cases pc with
  | loop_test =>
    by_cases hz : dlen = 0
    · simp [step, hz] at h
    · simp [step, hz] at h
  | in_call pending r c =>
    cases pending with
    | nil => simp [step] at h
    | cons v vs =>
      simp only [step] at h ⊢
      cases haw : align_write g dd v with
      | error f2 => exact ⟨rfl, rfl⟩
      | ok g1 => rw [haw] at h; simp at h
  | after_call c => simp [step] at h
  | before_memcpy c => simp [step] at h
  | after_memcpy c => simp [step] at h
  | break_test =>
    by_cases hr : res = Res.TINF_OK
    · simp [step, hr] at h
    · simp [step, hr] at h
  | loop_exit => exact ⟨rfl, rfl⟩
  | fault f2 => exact ⟨rfl, rfl⟩

theorem faithful_run (eng : Engine) (L : Nat) (p : Int) (hL : L + 1 < 2 ^ 32)
    (hc : EngineContract eng) (n : Nat) (s : Main)
    (ha : LoopArith L p s) (h : LoopData False p s) (hf : Faithful s) :
    Faithful (run eng n s) := by
  induction n generalizing s with
  | zero => exact hf
  | succ n ih =>
    have ha2 := loopArith_step eng L p hL s ha
    have h2 := loopData_step eng False L p hc (fun hF => hF.elim) s ha h
    refine ih _ ha2 h2 ?_
    by_cases hnf : ∀ f, (step eng s).pc ≠ PC.fault f
    · exact faithful_of_invariants False L p _ ha2 h2 hnf
    · push_neg at hnf
      obtain ⟨f, hpf⟩ := hnf
      obtain ⟨e1, e2⟩ := step_fault_frame eng s f hpf
      rw [faithful_iff] at hf ⊢
      rw [e1, e2]
      exact hf

theorem step_loop_test (eng : Engine) (s : Main) (h1 : s.pc = PC.loop_test)
    (h2 : s.dlen ≠ 0) :
    (step eng s).g.flashed = s.g.flashed ∧ (step eng s).g.dest = s.g.dest ∧
    (step eng s).g.tmpshift = s.d_dest - s.g.dest ∧ (step eng s).d_dest = s.d_dest := by
  obtain ⟨g, dlen, dd, dl, res, pc, calls, em, fls⟩ := s
  simp only at h1 h2
  subst h1
  simp [step, h2]

theorem step_after_call (eng : Engine) (s : Main) (c : Nat) (h1 : s.pc = PC.after_call c) :
    (step eng s).dlen = (s.dlen + 2 ^ 32 - c) % 2 ^ 32 := by
  obtain ⟨g, dlen, dd, dl, res, pc, calls, em, fls⟩ := s
  simp only at h1
  subst h1
  simp [step]

theorem trailer_dlen_lt (g : Sink) : trailer_dlen g < 2 ^ 32 :=
  Nat.mod_lt _ (by decide)

theorem run_loop_exit (eng : Engine) (n : Nat) (s : Main) (h : s.pc = PC.loop_exit) :
    run eng n s = s := by
  induction n with
  | zero => rfl
  | succ n ih =>
    have hs : step eng s = s := by
      obtain ⟨g, dlen, dd, dl, res, pc, calls, em, fls⟩ := s
      simp only at h
      subst h
      rfl
    show run eng n (step eng s) = s
    rw [hs]
    exact ih

/-- When the capacity wraps to 0 the loop body is never entered: the state is
the initial one, at the loop test or behind the loop. -/
theorem run_of_capacity_zero (eng : Engine) (g : Sink) (p : Int) (n : Nat)
    (h0 : dest_capacity g = 0) :
    run eng n (main_init g p) = main_init g p ∨
    run eng n (main_init g p) = { main_init g p with pc := PC.loop_exit } := by
  cases n with
  | zero => exact Or.inl rfl
  | succ n =>
    right
    have hs : step eng (main_init g p) = { main_init g p with pc := PC.loop_exit } := by
      simp [step, main_init, h0]
    show run eng n (step eng (main_init g p)) = _
    rw [hs]
    exact run_loop_exit eng n _ rfl

theorem capacity_zero_of_not_lt (g : Sink) (h : ¬ trailer_dlen g + 1 < 2 ^ 32) :
    dest_capacity g = 0 := by
  have := trailer_dlen_lt g
  have h2 : trailer_dlen g + 1 = 2 ^ 32 := by omega
  unfold dest_capacity
  rw [h2]
  exact Nat.mod_self _

/-! ## The claims about the loop -/

/-- C1 as stated fails: on the stream that decodes to the three bytes `1 2 3`,
with declared length 3, the loop ends with `TINF_DONE` after one flush of
`chunk_len = 4` bytes; the bytes copied are `1 2 3 0`, one more than the engine
emitted. -/
theorem flushed_bytes_counterexample :
    EngineContract (stream_engine [1, 2, 3]) ∧
    trailer_dlen (input_declaring 3 0 0 0) = 3 ∧
    (run (stream_engine [1, 2, 3]) 9 (main_init (input_declaring 3 0 0 0) 65536)).pc
      = PC.loop_exit ∧
    (run (stream_engine [1, 2, 3]) 9 (main_init (input_declaring 3 0 0 0) 65536)).res
      = Res.TINF_DONE ∧
    (run (stream_engine [1, 2, 3]) 9 (main_init (input_declaring 3 0 0 0) 65536)).emitted
      = [1, 2, 3] ∧
    (run (stream_engine [1, 2, 3]) 9 (main_init (input_declaring 3 0 0 0) 65536)).flushes.flatten
      = [1, 2, 3, 0] ∧
    (run (stream_engine [1, 2, 3]) 9 (main_init (input_declaring 3 0 0 0) 65536)).flushes.flatten
      ≠ (run (stream_engine [1, 2, 3]) 9 (main_init (input_declaring 3 0 0 0) 65536)).emitted :=
  ⟨stream_engine_contract _, by decide, by decide, by decide, by decide, by decide, by decide⟩

/-- C1, amended: for every engine that keeps the contract towards the sink and
every run of the loop that ends with `TINF_DONE` on a stream whose output length
equals the declared length `L`, the bytes copied by the flushes, concatenated in
flush order, begin with the bytes the engine emitted, in emission order; they are
`L` or `L + 1` bytes, and `L + 1` bytes when the engine stops before
`d.dest_limit` whenever it does not return `TINF_OK`. -/
theorem flushed_bytes_begin_with_emitted (eng : Engine) (g : Sink) (p : Int) (n : Nat)
    (hc : EngineContract eng)
    (hpc : (run eng n (main_init g p)).pc = PC.loop_exit)
    (hres : (run eng n (main_init g p)).res = Res.TINF_DONE)
    (hlen : (run eng n (main_init g p)).emitted.length = trailer_dlen g) :
    (run eng n (main_init g p)).flushes.flatten.take (trailer_dlen g)
      = (run eng n (main_init g p)).emitted ∧
    trailer_dlen g ≤ (run eng n (main_init g p)).flushes.flatten.length ∧
    (run eng n (main_init g p)).flushes.flatten.length ≤ trailer_dlen g + 1 ∧
    (EngineStopsEarly eng →
      (run eng n (main_init g p)).flushes.flatten.length = trailer_dlen g + 1) := by
  by_cases hL : trailer_dlen g + 1 < 2 ^ 32
  · obtain ⟨ha, hd⟩ := invariants_from_init eng (EngineStopsEarly eng) g p n hL hc id
    generalize run eng n (main_init g p) = S at *
    obtain ⟨g1, dlen, dd, dl, res, pc, calls, em, fls⟩ := S
    simp only at hpc hres hlen
    subst hpc hres
    obtain ⟨-, -, -, a1, a2, a3, a4, a5⟩ := ha
    obtain ⟨-, hI1, hI2, h1, -, h2⟩ := hd
    simp only at a1 a2 a3 a4 a5 hI1 hI2 h1 h2 ⊢
    refine ⟨?_, by omega, by omega, ?_⟩
    · rw [← hlen]
      apply take_eq_of_getElem? _ _ h1
      intro i b hi
      exact hI2 i b hi (by have := getElem?_lt_of_some hi; omega)
    · intro hs
      have := h2 hs (by intro hr; cases hr)
      omega
  · exfalso
    rcases run_of_capacity_zero eng g p n (capacity_zero_of_not_lt g hL) with h | h
    · rw [h] at hres
      cases hres
    · rw [h] at hres
      cases hres

theorem flushed_bytes_begin_with_emitted_witness :
    (run (stream_engine [1, 2, 3]) 9
        (main_init (input_declaring 3 0 0 0) 65536)).flushes.flatten.take
          (trailer_dlen (input_declaring 3 0 0 0))
      = (run (stream_engine [1, 2, 3]) 9 (main_init (input_declaring 3 0 0 0) 65536)).emitted ∧
    trailer_dlen (input_declaring 3 0 0 0)
      ≤ (run (stream_engine [1, 2, 3]) 9
          (main_init (input_declaring 3 0 0 0) 65536)).flushes.flatten.length ∧
    (run (stream_engine [1, 2, 3]) 9
        (main_init (input_declaring 3 0 0 0) 65536)).flushes.flatten.length
      ≤ trailer_dlen (input_declaring 3 0 0 0) + 1 ∧
    (EngineStopsEarly (stream_engine [1, 2, 3]) →
      (run (stream_engine [1, 2, 3]) 9
          (main_init (input_declaring 3 0 0 0) 65536)).flushes.flatten.length
        = trailer_dlen (input_declaring 3 0 0 0) + 1) :=
  flushed_bytes_begin_with_emitted (stream_engine [1, 2, 3]) (input_declaring 3 0 0 0) 65536 9
    (stream_engine_contract _) (by decide) (by decide) (by decide)

set_option maxRecDepth 1000000 in
/-- C7 as stated fails: on a stream that decodes to exactly 512 bytes, with
declared length 512, the loop ends with `TINF_DONE` after two flushes (one of
512 bytes, one of the spare byte), while `ceil(512 / TMPSZ)` is 1. -/
theorem flush_count_counterexample :
    EngineContract (stream_engine (List.replicate 512 7)) ∧
    EngineStopsEarly (stream_engine (List.replicate 512 7)) ∧
    (trailer_dlen (input_declaring 0 2 0 0) = 512 ∧
    (run (stream_engine (List.replicate 512 7)) 524
      (main_init (input_declaring 0 2 0 0) 65536)).pc = PC.loop_exit ∧
    (run (stream_engine (List.replicate 512 7)) 524
      (main_init (input_declaring 0 2 0 0) 65536)).res = Res.TINF_DONE ∧
    (run (stream_engine (List.replicate 512 7)) 524
      (main_init (input_declaring 0 2 0 0) 65536)).emitted.length = 512 ∧
    (run (stream_engine (List.replicate 512 7)) 524
      (main_init (input_declaring 0 2 0 0) 65536)).flushes.length = 2 ∧
    (512 + (TMPSZ - 1)) / TMPSZ = 1) :=
  ⟨stream_engine_contract _, stream_engine_stops_early _, by decide⟩

/-- C7, amended: for every engine of the model (a call fills
`[d.dest, d.dest_limit)` and returns `TINF_OK`, or stops before `d.dest_limit`
and returns another code), every declared length `L` with `L + 1 < 2^32` and
every run of the loop that ends with `TINF_DONE` having emitted exactly `L`
bytes, the number of flushes is `floor(L / TMPSZ) + 1`, which is
`ceil((L + 1) / TMPSZ)`. -/
theorem flush_count (eng : Engine) (g : Sink) (p : Int) (n : Nat)
    (hL : trailer_dlen g + 1 < 2 ^ 32) (hc : EngineContract eng)
    (hs : EngineStopsEarly eng)
    (hpc : (run eng n (main_init g p)).pc = PC.loop_exit)
    (hres : (run eng n (main_init g p)).res = Res.TINF_DONE)
    (hlen : (run eng n (main_init g p)).emitted.length = trailer_dlen g) :
    (run eng n (main_init g p)).flushes.length = trailer_dlen g / TMPSZ + 1 ∧
    (run eng n (main_init g p)).flushes.length
      = (trailer_dlen g + 1 + (TMPSZ - 1)) / TMPSZ := by
  obtain ⟨ha, hd⟩ := invariants_from_init eng True g p n hL hc (fun _ => hs)
  generalize run eng n (main_init g p) = S at *
  obtain ⟨g1, dlen, dd, dl, res, pc, calls, em, fls⟩ := S
  simp only at hpc hres hlen
  subst hpc hres
  obtain ⟨-, -, -, h1, -, h2⟩ := hd
  simp only at h1 h2 ⊢
  have := h2 trivial (by intro hr; cases hr)
  unfold TMPSZ
  omega

theorem flush_count_witness :
    (run (stream_engine [1, 2, 3]) 9 (main_init (input_declaring 3 0 0 0) 65536)).flushes.length
      = trailer_dlen (input_declaring 3 0 0 0) / TMPSZ + 1 ∧
    (run (stream_engine [1, 2, 3]) 9 (main_init (input_declaring 3 0 0 0) 65536)).flushes.length
      = (trailer_dlen (input_declaring 3 0 0 0) + 1 + (TMPSZ - 1)) / TMPSZ :=
  flush_count (stream_engine [1, 2, 3]) (input_declaring 3 0 0 0) 65536 9
    (by decide) (stream_engine_contract _) (stream_engine_stops_early _)
    (by decide) (by decide) (by decide)

/-- C9: sink faithfulness is an invariant of the loop. For every engine that
keeps the contract, after any number of steps of the loop: (a) a call of
`uzlib_uncompress` is entered with `flashed == dest + tmpshift == d.dest`, and
`flashed == dest + tmpshift` holds throughout the call; (b) for every `i` below
the number of bytes emitted so far, `align_read(dest + i)` returns the `i`-th
emitted byte. -/
theorem sink_faithful (eng : Engine) (g : Sink) (p : Int) (n : Nat)
    (hc : EngineContract eng) :
    ((run eng n (main_init g p)).pc = PC.loop_test →
      (run eng n (main_init g p)).dlen ≠ 0 →
      (step eng (run eng n (main_init g p))).g.flashed
        = (step eng (run eng n (main_init g p))).g.dest
          + (step eng (run eng n (main_init g p))).g.tmpshift ∧
      (step eng (run eng n (main_init g p))).g.dest
          + (step eng (run eng n (main_init g p))).g.tmpshift
        = (step eng (run eng n (main_init g p))).d_dest) ∧
    (∀ pending r c, (run eng n (main_init g p)).pc = PC.in_call pending r c →
      (run eng n (main_init g p)).g.flashed
        = (run eng n (main_init g p)).g.dest + (run eng n (main_init g p)).g.tmpshift) ∧
    Faithful (run eng n (main_init g p)) := by
  by_cases hL : trailer_dlen g + 1 < 2 ^ 32
  · have hf : Faithful (run eng n (main_init g p)) :=
      faithful_run eng (trailer_dlen g) p hL hc n (main_init g p) (loopArith_init g p hL)
        (loopData_init False g p)
        (faithful_of_invariants False (trailer_dlen g) p _ (loopArith_init g p hL)
          (loopData_init False g p) (by intro f hpf; cases hpf))
    obtain ⟨ha, hd⟩ := invariants_from_init eng False g p n hL hc (fun hF => hF.elim)
    refine ⟨?_, ?_, hf⟩
    · intro hpc hz
      obtain ⟨e1, e2, e3, e4⟩ := step_loop_test eng _ hpc hz
      rw [e1, e2, e3, e4]
      generalize run eng n (main_init g p) = S at *
      obtain ⟨g1, dlen, dd, dl, res, pc, calls, em, fls⟩ := S
      simp only at hpc
      subst hpc
      obtain ⟨a0, -, -, a1, -⟩ := ha
      obtain ⟨d0, -, -, d1, -⟩ := hd
      simp only at a0 a1 d0 d1 ⊢
      constructor <;> omega
    · intro pending r c hpc
      generalize run eng n (main_init g p) = S at *
      obtain ⟨g1, dlen, dd, dl, res, pc, calls, em, fls⟩ := S
      simp only at hpc
      subst hpc
      obtain ⟨a0, -, -, a1, -⟩ := ha
      obtain ⟨-, -, -, d1, -⟩ := hd
      simp only at a0 a1 d1 ⊢
      omega
  · have h0 := capacity_zero_of_not_lt g hL
    have hfi : ∀ S : Main, S.emitted = [] → Faithful S := by
      intro S hS i hi
      rw [hS] at hi
      cases hi
    rcases run_of_capacity_zero eng g p n h0 with h | h
    · rw [h]
      refine ⟨fun _ hz => absurd h0 hz, ?_, hfi _ rfl⟩
      intro pending r c hpc
      cases hpc
    · rw [h]
      refine ⟨fun hpc _ => PC.noConfusion hpc, ?_, hfi _ rfl⟩
      intro pending r c hpc
      cases hpc

theorem sink_faithful_witness :
    ((run (stream_engine [1, 2, 3]) 3 (main_init (input_declaring 3 0 0 0) 65536)).pc
        = PC.loop_test →
      (run (stream_engine [1, 2, 3]) 3 (main_init (input_declaring 3 0 0 0) 65536)).dlen ≠ 0 →
      (step (stream_engine [1, 2, 3])
          (run (stream_engine [1, 2, 3]) 3 (main_init (input_declaring 3 0 0 0) 65536))).g.flashed
        = (step (stream_engine [1, 2, 3])
            (run (stream_engine [1, 2, 3]) 3 (main_init (input_declaring 3 0 0 0) 65536))).g.dest
          + (step (stream_engine [1, 2, 3])
            (run (stream_engine [1, 2, 3]) 3
              (main_init (input_declaring 3 0 0 0) 65536))).g.tmpshift ∧
      (step (stream_engine [1, 2, 3])
            (run (stream_engine [1, 2, 3]) 3 (main_init (input_declaring 3 0 0 0) 65536))).g.dest
          + (step (stream_engine [1, 2, 3])
            (run (stream_engine [1, 2, 3]) 3
              (main_init (input_declaring 3 0 0 0) 65536))).g.tmpshift
        = (step (stream_engine [1, 2, 3])
            (run (stream_engine [1, 2, 3]) 3
              (main_init (input_declaring 3 0 0 0) 65536))).d_dest) ∧
    (∀ pending r c,
      (run (stream_engine [1, 2, 3]) 3 (main_init (input_declaring 3 0 0 0) 65536)).pc
        = PC.in_call pending r c →
      (run (stream_engine [1, 2, 3]) 3 (main_init (input_declaring 3 0 0 0) 65536)).g.flashed
        = (run (stream_engine [1, 2, 3]) 3 (main_init (input_declaring 3 0 0 0) 65536)).g.dest
          + (run (stream_engine [1, 2, 3]) 3
              (main_init (input_declaring 3 0 0 0) 65536)).g.tmpshift) ∧
    Faithful (run (stream_engine [1, 2, 3]) 3 (main_init (input_declaring 3 0 0 0) 65536)) :=
  sink_faithful (stream_engine [1, 2, 3]) (input_declaring 3 0 0 0) 65536 3
    (stream_engine_contract _)

/-- C10: no flush overruns either buffer. For every declared length `L` with
`L + 1 < 2^32` and every engine, whatever it returns, after any number of steps
of the loop: `1 <= chunk_len <= TMPSZ` in the iteration under way; the statement
`dlen -= chunk_len` makes `dlen` strictly smaller; at the `memcpy` the range
`[flashed, flashed + chunk_len)` lies inside `[dest, dest + L + 1)` and the
indices of `tmp` it reads, `0 .. chunk_len - 1`, lie in `[0, TMPSZ)`; and the number of
iterations begun is at most `ceil((L + 1) / TMPSZ)`. -/
theorem flush_within_bounds (eng : Engine) (g : Sink) (p : Int) (n : Nat)
    (hL : trailer_dlen g + 1 < 2 ^ 32) :
    (∀ pending r c, (run eng n (main_init g p)).pc = PC.in_call pending r c →
      1 ≤ c ∧ c ≤ TMPSZ) ∧
    (∀ c, (run eng n (main_init g p)).pc = PC.after_call c →
      1 ≤ c ∧ c ≤ TMPSZ ∧
      (step eng (run eng n (main_init g p))).dlen < (run eng n (main_init g p)).dlen) ∧
    (∀ c, (run eng n (main_init g p)).pc = PC.before_memcpy c →
      1 ≤ c ∧ c ≤ TMPSZ ∧
      (run eng n (main_init g p)).g.dest ≤ (run eng n (main_init g p)).g.flashed ∧
      (run eng n (main_init g p)).g.flashed + (c : Int)
        ≤ (run eng n (main_init g p)).g.dest + ((trailer_dlen g + 1 : Nat) : Int) ∧
      ∀ j ∈ List.range c, (0 : Int) ≤ Int.ofNat j ∧ Int.ofNat j < (TMPSZ : Int)) ∧
    (run eng n (main_init g p)).calls ≤ (trailer_dlen g + 1 + (TMPSZ - 1)) / TMPSZ := by
  have ha := loopArith_run eng (trailer_dlen g) p hL n (main_init g p) (loopArith_init g p hL)
  refine ⟨?_, ?_, ?_, ?_⟩
  · intro pending r c hpc
    generalize run eng n (main_init g p) = S at *
    obtain ⟨g1, dlen, dd, dl, res, pc, calls, em, fls⟩ := S
    simp only at hpc
    subst hpc
    obtain ⟨-, -, -, a1, a2, a3, a4, a5, a6, a7, a8⟩ := ha
    unfold TMPSZ
    exact ⟨a4, a5⟩
  · intro c hpc
    rw [step_after_call eng _ c hpc]
    generalize run eng n (main_init g p) = S at *
    obtain ⟨g1, dlen, dd, dl, res, pc, calls, em, fls⟩ := S
    simp only at hpc
    subst hpc
    obtain ⟨-, -, -, a1, a2, a3, a4, a5, a6, a7, a8⟩ := ha
    simp only at a1 a2 a3 a4 a5 a6 a7 a8 ⊢
    unfold TMPSZ
    refine ⟨a4, a5, ?_⟩
    omega
  · intro c hpc
    generalize run eng n (main_init g p) = S at *
    obtain ⟨g1, dlen, dd, dl, res, pc, calls, em, fls⟩ := S
    simp only at hpc
    subst hpc
    obtain ⟨a0, -, -, a1, a2, a3, a4, a5, a6, a7⟩ := ha
    simp only at a0 a1 a2 a3 a4 a5 a6 a7 ⊢
    unfold TMPSZ
    refine ⟨a4, a5, by omega, by omega, ?_⟩
    intro j hj
    have := List.mem_range.mp hj
    simp only [Int.ofNat_eq_coe]
    omega
  · generalize run eng n (main_init g p) = S at *
    obtain ⟨-, -, hcalls, -⟩ := ha
    unfold TMPSZ
    omega

theorem flush_within_bounds_witness :
    (∀ pending r c,
      (run (stream_engine [1, 2, 3]) 6 (main_init (input_declaring 3 0 0 0) 65536)).pc
        = PC.in_call pending r c → 1 ≤ c ∧ c ≤ TMPSZ) ∧
    (∀ c, (run (stream_engine [1, 2, 3]) 6 (main_init (input_declaring 3 0 0 0) 65536)).pc
        = PC.after_call c →
      1 ≤ c ∧ c ≤ TMPSZ ∧
      (step (stream_engine [1, 2, 3])
          (run (stream_engine [1, 2, 3]) 6 (main_init (input_declaring 3 0 0 0) 65536))).dlen
        < (run (stream_engine [1, 2, 3]) 6 (main_init (input_declaring 3 0 0 0) 65536)).dlen) ∧
    (∀ c, (run (stream_engine [1, 2, 3]) 6 (main_init (input_declaring 3 0 0 0) 65536)).pc
        = PC.before_memcpy c →
      1 ≤ c ∧ c ≤ TMPSZ ∧
      (run (stream_engine [1, 2, 3]) 6 (main_init (input_declaring 3 0 0 0) 65536)).g.dest
        ≤ (run (stream_engine [1, 2, 3]) 6 (main_init (input_declaring 3 0 0 0) 65536)).g.flashed ∧
      (run (stream_engine [1, 2, 3]) 6 (main_init (input_declaring 3 0 0 0) 65536)).g.flashed
          + (c : Int)
        ≤ (run (stream_engine [1, 2, 3]) 6 (main_init (input_declaring 3 0 0 0) 65536)).g.dest
          + ((trailer_dlen (input_declaring 3 0 0 0) + 1 : Nat) : Int) ∧
      ∀ j ∈ List.range c, (0 : Int) ≤ Int.ofNat j ∧ Int.ofNat j < (TMPSZ : Int)) ∧
    (run (stream_engine [1, 2, 3]) 6 (main_init (input_declaring 3 0 0 0) 65536)).calls
      ≤ (trailer_dlen (input_declaring 3 0 0 0) + 1 + (TMPSZ - 1)) / TMPSZ :=
  flush_within_bounds (stream_engine [1, 2, 3]) (input_declaring 3 0 0 0) 65536 6 (by decide)

/-! ## Termination of the loop, and the run on a stream of the declared length -/

theorem run_add (eng : Engine) (a b : Nat) (s : Main) :
    run eng (a + b) s = run eng b (run eng a s) := by
  induction a generalizing s with
  | zero => rw [Nat.zero_add]; rfl
  | succ a ih =>
    have h : a + 1 + b = (a + b) + 1 := by omega
    rw [h]
    exact ih (step eng s)

theorem step_in_call_nil (eng : Engine) (s : Main) (r : Res) (c : Nat)
    (h : s.pc = PC.in_call [] r c) :
    (step eng s).pc = PC.after_call c ∧ (step eng s).dlen = s.dlen := by
  obtain ⟨g, dlen, dd, dl, res, pc, calls, em, fls⟩ := s
  simp only at h
  subst h
  exact ⟨rfl, rfl⟩

theorem step_in_call_cons (eng : Engine) (s : Main) (v : Byte) (vs : List Byte) (r : Res)
    (c : Nat) (h : s.pc = PC.in_call (v :: vs) r c) :
    (step eng s).dlen = s.dlen ∧
    ((step eng s).pc = PC.in_call vs r c ∨ ∃ f, (step eng s).pc = PC.fault f) := by
  obtain ⟨g, dlen, dd, dl, res, pc, calls, em, fls⟩ := s
  simp only at h
  subst h
  simp only [step]
  cases align_write g dd v with
  | error f => exact ⟨rfl, Or.inr ⟨f, rfl⟩⟩
  | ok g1 => exact ⟨rfl, Or.inl rfl⟩

/-- A call of the engine comes to its return, or to a fault, and leaves `dlen`
as it was. -/
theorem call_returns (eng : Engine) (pending : List Byte) :
    ∀ (s : Main) (r : Res) (c : Nat), s.pc = PC.in_call pending r c →
      ∃ k, (run eng k s).dlen = s.dlen ∧
        ((run eng k s).pc = PC.after_call c ∨ ∃ f, (run eng k s).pc = PC.fault f) := by
  induction pending with
  | nil =>
    intro s r c h
    obtain ⟨e1, e2⟩ := step_in_call_nil eng s r c h
    exact ⟨1, e2, Or.inl e1⟩
  | cons v vs ih =>
    intro s r c h
    obtain ⟨e1, e2⟩ := step_in_call_cons eng s v vs r c h
    rcases e2 with e2 | e2
    · obtain ⟨k, h1, h2⟩ := ih (step eng s) r c e2
      refine ⟨k + 1, ?_, ?_⟩
      · show (run eng k (step eng s)).dlen = s.dlen
        rw [h1, e1]
      · exact h2
    · exact ⟨1, e1, Or.inr e2⟩

/-- From the return of the call the loop comes, in four steps, back to its test
or behind the loop, with `dlen` reduced by `chunk_len`. -/
theorem after_call_returns (eng : Engine) (s : Main) (c : Nat)
    (h : s.pc = PC.after_call c) :
    (run eng 4 s).dlen = (s.dlen + 2 ^ 32 - c) % 2 ^ 32 ∧
    ((run eng 4 s).pc = PC.loop_test ∨ (run eng 4 s).pc = PC.loop_exit) := by
  obtain ⟨g, dlen, dd, dl, res, pc, calls, em, fls⟩ := s
  simp only at h
  subst h
  by_cases hr : res = Res.TINF_OK
  · simp [run, step, hr]
  · simp [run, step, hr]

theorem step_loop_test_pc (eng : Engine) (s : Main) (h1 : s.pc = PC.loop_test) :
    (s.dlen = 0 → (step eng s).pc = PC.loop_exit) ∧
    (s.dlen ≠ 0 → (step eng s).dlen = s.dlen ∧
      (step eng s).pc = PC.in_call
        (eng s.calls s.emitted.length (if s.dlen < TMPSZ then s.dlen else TMPSZ)).1
        (eng s.calls s.emitted.length (if s.dlen < TMPSZ then s.dlen else TMPSZ)).2
        (if s.dlen < TMPSZ then s.dlen else TMPSZ)) := by
  obtain ⟨g, dlen, dd, dl, res, pc, calls, em, fls⟩ := s
  simp only at h1
  subst h1
  constructor
  · intro hz
    simp only at hz
    subst hz
    rfl
  · intro hz
    simp only at hz
    simp [step, hz]

theorem terminates_from_loop_test (eng : Engine) (L : Nat) (p : Int) (hL : L + 1 < 2 ^ 32) :
    ∀ (d : Nat) (s : Main), s.dlen = d → s.pc = PC.loop_test → LoopArith L p s →
      ∃ n, Terminal (run eng n s) := by
  intro d
  induction d using Nat.strong_induction_on with
  | _ d ih =>
    intro s hd hpc ha
    obtain ⟨hz1, hz2⟩ := step_loop_test_pc eng s hpc
    by_cases hz : s.dlen = 0
    · exact ⟨1, Or.inl (hz1 hz)⟩
    · obtain ⟨e1, e2⟩ := hz2 hz
      obtain ⟨k, k1, k2⟩ := call_returns eng _ (step eng s) _ _ e2
      rcases k2 with k2 | k2
      · obtain ⟨t1, t2⟩ := after_call_returns eng (run eng k (step eng s)) _ k2
        have hrun : run eng (1 + k + 4) s = run eng 4 (run eng k (step eng s)) := by
          rw [run_add, run_add]
          rfl
        have ha2 : LoopArith L p (run eng (1 + k + 4) s) := loopArith_run eng L p hL _ s ha
        have hbound : s.dlen < 2 ^ 32 := by
          obtain ⟨g, dlen, dd, dl, res, pc, calls, em, fls⟩ := s
          simp only at hpc
          subst hpc
          obtain ⟨-, -, -, -, a2, -⟩ := ha
          simp only at a2 ⊢
          omega
        have hlt : (run eng (1 + k + 4) s).dlen < d := by
          rw [hrun, t1, k1, e1, ← hd]
          unfold TMPSZ
          split <;> omega
        rcases t2 with t2 | t2
        · obtain ⟨m, hm⟩ := ih _ hlt (run eng (1 + k + 4) s) rfl (by rw [hrun]; exact t2) ha2
          refine ⟨1 + k + 4 + m, ?_⟩
          rw [run_add]
          exact hm
        · exact ⟨1 + k + 4, Or.inl (by rw [hrun]; exact t2)⟩
      · refine ⟨1 + k, Or.inr ?_⟩
        have hrun : run eng (1 + k) s = run eng k (step eng s) := by
          rw [run_add]
          rfl
        rw [hrun]
        exact k2

/-- The loop of `main` comes to an end for every input and every engine: after
finitely many steps the program point is behind the loop, or the process has
stopped on a fault. -/
theorem loop_terminates (eng : Engine) (g : Sink) (p : Int) :
    ∃ n, Terminal (run eng n (main_init g p)) := by
  by_cases hL : trailer_dlen g + 1 < 2 ^ 32
  · exact terminates_from_loop_test eng (trailer_dlen g) p hL _ (main_init g p) rfl rfl
      (loopArith_init g p hL)
  · refine ⟨1, Or.inl ?_⟩
    rcases run_of_capacity_zero eng g p 1 (capacity_zero_of_not_lt g hL) with h | h
    · have h0 := capacity_zero_of_not_lt g hL
      have : step eng (main_init g p) = { main_init g p with pc := PC.loop_exit } := by
        simp [step, main_init, h0]
      show (step eng (main_init g p)).pc = PC.loop_exit
      rw [this]
    · rw [h]

theorem streamData_step (xs : List Byte) (s : Main) (h : StreamData xs s) :
    StreamData xs (step (stream_engine xs) s) := by
  obtain ⟨g, dlen, dd, dl, res, pc, calls, em, fls⟩ := s
  obtain ⟨hpre, hle, h⟩ := h
  simp only at hpre hle h
  cases pc with
  | loop_test =>
    simp only at h
    by_cases hz : dlen = 0
    · subst hz
      simp only [step, ne_eq, not_true_eq_false, if_false, StreamData]
      exact ⟨hpre, hle, h⟩
    · simp only [step, ne_eq, hz, not_false_eq_true, if_true, StreamData, stream_engine]
      refine ⟨hpre, hle, ?_⟩
      by_cases hroom : (if dlen < TMPSZ then dlen else TMPSZ) ≤ (List.drop em.length xs).length
      · simp only [hroom, if_true]
        refine ⟨?_, ?_, Or.inl trivial⟩
        · intro j b hj
          have hlt := getElem?_lt_of_some hj
          rw [List.length_take] at hlt
          rw [List.getElem?_take_of_lt (by omega), List.getElem?_drop] at hj
          exact hj
        · rw [List.length_take]
          rw [List.length_drop] at hroom
          omega
      · simp only [hroom, if_false]
        refine ⟨?_, ?_, Or.inr ⟨trivial, ?_⟩⟩
        · intro j b hj
          rw [List.getElem?_drop] at hj
          exact hj
        · rw [List.length_drop]
          omega
        · rw [List.length_drop]
          omega
  | in_call pending r c =>
    simp only at h
    obtain ⟨h1, h2, h3⟩ := h
    cases pending with
    | nil =>
      simp only [step, StreamData]
      simp only [List.length_nil, Nat.add_zero] at h3
      exact ⟨hpre, hle, h3⟩
    | cons v vs =>
      simp only [step]
      simp only [List.length_cons] at h2 h3
      cases align_write g dd v with
      | error f => simp only [StreamData]; exact ⟨hpre, hle, trivial⟩
      | ok g1 =>
        simp only [StreamData, List.length_append, List.length_singleton]
        refine ⟨?_, by omega, ?_, by omega, ?_⟩
        · intro i b hi
          rcases getElem?_snoc_some hi with ⟨-, hi2⟩ | ⟨hi2, hb⟩
          · exact hpre i b hi2
          · have := h1 0 v List.getElem?_cons_zero
            rw [hi2, hb]
            exact this
        · intro j b hj
          have := h1 (j + 1) b (by rw [List.getElem?_cons_succ]; exact hj)
          have e : em.length + 1 + j = em.length + (j + 1) := by omega
          rw [e]
          exact this
        · rcases h3 with h3 | ⟨h3, h4⟩
          · exact Or.inl h3
          · exact Or.inr ⟨h3, by omega⟩
  | after_call c =>
    simp only at h
    simp only [step, StreamData]
    exact ⟨hpre, hle, h⟩
  | before_memcpy c =>
    simp only at h
    simp only [step, StreamData]
    exact ⟨hpre, hle, h⟩
  | after_memcpy c =>
    simp only at h
    simp only [step, StreamData]
    exact ⟨hpre, hle, h⟩
  | break_test =>
    simp only at h
    by_cases hr : res = Res.TINF_OK
    · simp only [step, hr, ne_eq, not_true_eq_false, if_false, StreamData]
      exact ⟨hpre, hle, Or.inl trivial⟩
    · simp only [step, hr, ne_eq, not_false_eq_true, if_true, StreamData]
      exact ⟨hpre, hle, Or.inr (h.resolve_left hr)⟩
  | loop_exit =>
    simp only [step, StreamData]
    exact ⟨hpre, hle, h⟩
  | fault f =>
    simp only [step, StreamData]
    exact ⟨hpre, hle, trivial⟩

theorem step_tmp_addr (eng : Engine) (s : Main) :
    (step eng s).g.tmp_addr = s.g.tmp_addr := by
  obtain ⟨g, dlen, dd, dl, res, pc, calls, em, fls⟩ := s
  cases pc with
  | loop_test =>
    by_cases hz : dlen = 0
    · simp [step, hz]
    · simp [step, hz]
  | in_call pending r c =>
    cases pending with
    | nil => rfl
    | cons v vs =>
      simp only [step]
      cases haw : align_write g dd v with
      | error f => rfl
      | ok g1 =>
        obtain ⟨-, -, -, -, -, e6, -⟩ := align_write_ok_fields g g1 dd v haw
        exact e6
  | after_call c => rfl
  | before_memcpy c => rfl
  | after_memcpy c => rfl
  | break_test =>
    by_cases hr : res = Res.TINF_OK
    · simp [step, hr]
    · simp [step, hr]
  | loop_exit => rfl
  | fault f => rfl

/-- With `tmp` placed below the destination block, an engine that keeps the
contract never makes `align_write` fail. -/
theorem step_no_fault (eng : Engine) (strict : Prop) (L : Nat) (p : Int) (s : Main)
    (ha : LoopArith L p s) (h : LoopData strict p s)
    (hp : s.g.tmp_addr + (TMPSZ : Int) < p) (hnf : ∀ f, s.pc ≠ PC.fault f) :
    ∀ f, (step eng s).pc ≠ PC.fault f := by
  obtain ⟨g, dlen, dd, dl, res, pc, calls, em, fls⟩ := s
  obtain ⟨hd, ho, hcalls, ha⟩ := ha
  obtain ⟨hdd, hI1, hI2, h⟩ := h
  simp only at hd ho hcalls ha hdd hI1 hI2 h hp hnf
  have hT : (TMPSZ : Int) = 512 := rfl
  cases pc with
  | loop_test =>
    intro f hf
    by_cases hz : dlen = 0
    · simp [step, hz] at hf
    · simp [step, hz] at hf
  | in_call pending r c =>
    cases pending with
    | nil =>
      intro f hf
      simp [step] at hf
    | cons v vs =>
      simp only at h ha
      obtain ⟨ht, h1, h2, h3, h4, h5⟩ := h
      obtain ⟨a1, a2, a3, a4, a5, a6, a7, a8⟩ := ha
      simp only [List.length_cons] at h2
      have hassert : dd - g.tmp_addr ≥ 0 ∧ g.tmp_addr + (TMPSZ : Int) - dd < (g.outlen : Int) := by
        constructor <;> omega
      have hidx : 0 ≤ dd - g.dest - g.tmpshift ∧ dd - g.dest - g.tmpshift < (TMPSZ : Int) := by
        constructor <;> omega
      have haw : align_write g dd v
          = .ok { g with tmp := Function.update g.tmp (dd - g.dest - g.tmpshift) v } := by
        simp only [align_write, hassert, hidx, and_self, if_true]
      intro f hf
      simp only [step, haw] at hf
      cases hf
  | after_call c =>
    intro f hf
    simp [step] at hf
  | before_memcpy c =>
    intro f hf
    simp [step] at hf
  | after_memcpy c =>
    intro f hf
    simp [step] at hf
  | break_test =>
    intro f hf
    by_cases hr : res = Res.TINF_OK
    · simp [step, hr] at hf
    · simp [step, hr] at hf
  | loop_exit =>
    intro f hf
    simp [step] at hf
  | fault f2 => exact absurd rfl (hnf f2)

theorem stream_invariants (xs : List Byte) (L : Nat) (p a : Int) (hL : L + 1 < 2 ^ 32)
    (hp : a + (TMPSZ : Int) < p) (n : Nat) (s : Main)
    (h1 : LoopArith L p s) (h2 : LoopData True p s) (h3 : StreamData xs s)
    (h4 : s.g.tmp_addr = a) (h5 : ∀ f, s.pc ≠ PC.fault f) :
    LoopArith L p (run (stream_engine xs) n s) ∧
    LoopData True p (run (stream_engine xs) n s) ∧
    StreamData xs (run (stream_engine xs) n s) ∧
    ∀ f, (run (stream_engine xs) n s).pc ≠ PC.fault f := by
  induction n generalizing s with
  | zero => exact ⟨h1, h2, h3, h5⟩
  | succ n ih =>
    exact ih (step (stream_engine xs) s)
      (loopArith_step _ L p hL s h1)
      (loopData_step _ True L p (stream_engine_contract xs)
        (fun _ => stream_engine_stops_early xs) s h1 h2)
      (streamData_step xs s h3)
      (by rw [step_tmp_addr]; exact h4)
      (step_no_fault _ True L p s h1 h2 (by rw [h4]; exact hp) h5)

/-- The run on a stream of the declared length. For every stream `xs` of the
declared length `L` (with `L + 1 < 2^32`), with `tmp` placed below the
destination block, the loop run with `stream_engine xs` comes behind the loop
with `TINF_DONE`, having emitted exactly `xs`; it has made
`floor(L / TMPSZ) + 1` flushes, which copied `L + 1` bytes, the first `L` of
them being `xs`. -/
theorem stream_run_total (xs : List Byte) (g : Sink) (p : Int)
    (hlen : xs.length = trailer_dlen g) (hL : trailer_dlen g + 1 < 2 ^ 32)
    (hp : g.tmp_addr + (TMPSZ : Int) < p) :
    ∃ n,
      (run (stream_engine xs) n (main_init g p)).pc = PC.loop_exit ∧
      (run (stream_engine xs) n (main_init g p)).res = Res.TINF_DONE ∧
      (run (stream_engine xs) n (main_init g p)).emitted = xs ∧
      (run (stream_engine xs) n (main_init g p)).flushes.length = trailer_dlen g / TMPSZ + 1 ∧
      (run (stream_engine xs) n (main_init g p)).flushes.flatten.length = trailer_dlen g + 1 ∧
      (run (stream_engine xs) n (main_init g p)).flushes.flatten.take (trailer_dlen g) = xs := by
  obtain ⟨n, hterm⟩ := loop_terminates (stream_engine xs) g p
  have hinit : StreamData xs (main_init g p) := by
    refine ⟨?_, Nat.zero_le _, Or.inl rfl⟩
    intro i b hi
    simp [main_init] at hi
  obtain ⟨ha, hd, hst, hnf⟩ := stream_invariants xs (trailer_dlen g) p g.tmp_addr hL hp n
    (main_init g p) (loopArith_init g p hL) (loopData_init True g p) hinit rfl
    (by intro f hf; cases hf)
  refine ⟨n, ?_⟩
  generalize run (stream_engine xs) n (main_init g p) = S at *
  have hpc : S.pc = PC.loop_exit := by
    rcases hterm with h | ⟨f, h⟩
    · exact h
    · exact absurd h (hnf f)
  obtain ⟨g1, dlen, dd, dl, res, pc, calls, em, fls⟩ := S
  simp only at hpc
  subst hpc
  obtain ⟨-, -, -, a1, a2, a3, a4, a5⟩ := ha
  obtain ⟨-, hI1, hI2, d1, d2, d3⟩ := hd
  obtain ⟨s1, s2, s3⟩ := hst
  simp only at a1 a2 a3 a4 a5 hI1 hI2 d1 d2 d3 s1 s2 s3 ⊢
  have hdone : res = Res.TINF_DONE ∧ em.length = xs.length := by
    rcases s3 with s3 | s3
    · have := d2 s3
      omega
    · exact s3
  obtain ⟨hres, hemlen⟩ := hdone
  subst hres
  have hstrict := d3 trivial (by intro hr; cases hr)
  have hem : em = xs := by
    have := take_eq_of_getElem? xs em (by omega) s1
    rw [hemlen, List.take_length] at this
    exact this.symm
  refine ⟨?_, ?_, hem, ?_, by omega, ?_⟩
  · trivial
  · trivial
  · unfold TMPSZ
    omega
  · rw [← hlen, ← hemlen]
    rw [← hem]
    apply take_eq_of_getElem? _ _ d1
    intro i b hi
    exact hI2 i b hi (by have := getElem?_lt_of_some hi; omega)

/-- The declared length is the little-endian value of the last four bytes of
the input. -/
theorem trailer_dlen_little_endian (g : Sink) :
    trailer_dlen g
      = (g.mem (g.source + ((g.len - 4 : Nat) : Int))).val
        + 256 * (g.mem (g.source + ((g.len - 3 : Nat) : Int))).val
        + 256 ^ 2 * (g.mem (g.source + ((g.len - 2 : Nat) : Int))).val
        + 256 ^ 3 * (g.mem (g.source + ((g.len - 1 : Nat) : Int))).val := by
  have h1 := (g.mem (g.source + ((g.len - 1 : Nat) : Int))).isLt
  have h2 := (g.mem (g.source + ((g.len - 2 : Nat) : Int))).isLt
  have h3 := (g.mem (g.source + ((g.len - 3 : Nat) : Int))).isLt
  have h4 := (g.mem (g.source + ((g.len - 4 : Nat) : Int))).isLt
  unfold trailer_dlen
  simp only
  norm_num
  omega

/-- For every trailer other than `FF FF FF FF` the capacity requested for the
destination is one byte more than the declared length. -/
theorem dest_capacity_of_ne (g : Sink) (h : trailer_dlen g ≠ 2 ^ 32 - 1) :
    dest_capacity g = trailer_dlen g + 1 := by
  have hlt : trailer_dlen g < 2 ^ 32 := Nat.mod_lt _ (by decide)
  unfold dest_capacity
  apply Nat.mod_eq_of_lt
  omega

end Uzf
